import Mathlib

/-!
Verification of TheLetterTheta/Mandelbrot (src/main.rs) against its
natural-language specification.

Shallow embedding conventions:

* `rug` arbitrary-precision floats are modelled by exact rationals `ℚ`.
  The program performs the `z`-recurrence at the planned working precision
  with correct rounding; the spec's own data-model invariant demands that
  all values "remain representable without precision loss", so the exact
  model is the spec's idealization, and every concrete input used below
  involves only small dyadic values that are exact at any precision the
  program would plan.
* The one reduced-precision operation, `Float::with_val(5, z.abs_ref())`
  (main.rs line 122), is a correctly rounded (nearest, ties-to-even)
  5-significant-bit magnitude.  For `x ≥ 0`, `round₅ x > 4` holds iff
  `x > 33/8` (the 5-bit neighbours of 4 are 4 and 17/4; their midpoint
  33/8 rounds down to the even mantissa).  The escape test is therefore
  embedded as `normSq z > (33/8)² = 1089/64`, which is exactly the
  comparison the program makes.
* The `f64` constant `10_f64.log2()` (main.rs line 103) is embedded as
  the exact rational value of that double.  The products `d * log2_10`
  the program forms are modelled exactly; the single f64 rounding of the
  product is at distance ≤ 2⁻²⁰ from the exact value for every argument
  appearing below and never crosses an integer, so the `ceil` agrees.
* `u32` arithmetic is `ℕ` with an explicit `% 2^32` where the program
  can wrap (release builds; debug builds abort at the same inputs).
-/

namespace Mandelbrot

/-- Exact rational value of the `f64` constant `10_f64.log2()`
(main.rs line 103). -/
def log2_10 : ℚ := 7480317065143153 / 2251799813685248

/-- Embeds `num_digits_log2_10` (main.rs lines 102-108):
`4 + ceil(d * log2(10))`, the ceiling clamped to `u32::MAX` by
`.min(u32::MAX as f64)` before the unchecked cast. -/
def num_digits_log2_10 (d : ℕ) : ℕ :=
  4 + min ⌈(d : ℚ) * log2_10⌉₊ (2 ^ 32 - 1)

/-- Embeds the precision that `parse_range` (main.rs lines 89-100) assigns
to both returned `Float`s of one axis: `num_digits_log2_10` of the longer
of the two bound strings (the axis string split at the comma by
`collect_tuple`), measured in characters (`str::len`). -/
def parse_range_prec (b e : String) : ℕ :=
  num_digits_log2_10 (max b.length e.length)

/-- Embeds `resolution_prec` (main.rs line 141):
`max(w, h).log2() + 1` where `u32::log2` is the floor logarithm. -/
def resolution_prec (w h : ℕ) : ℕ :=
  Nat.log2 (max w h) + 1

/-- Embeds the explicit-bounds precision plan (main.rs line 152):
`prec = resolution_prec + domain_start.prec().max(range_start.prec()) + 4`,
where the per-axis precisions come from `parse_range` applied to the
domain string (bounds `db,de`) and the range string (bounds `rb,re`). -/
def explicit_prec (w h : ℕ) (db de rb re : String) : ℕ :=
  resolution_prec w h + max (parse_range_prec db de) (parse_range_prec rb re) + 4

/-- Embeds the zoom-mode exponent term (main.rs lines 171-173):
`ceil(zoom * log2(10))` clamped to `u32::MAX`. -/
def zoom_p (zoom : ℕ) : ℕ :=
  min ⌈(zoom : ℚ) * log2_10⌉₊ (2 ^ 32 - 1)

/-- Embeds the zoom-mode precision plan (main.rs line 174):
`prec = zoom_p + 3 + resolution_prec`, a `u32` sum (wraps modulo 2³² in
release builds; a debug build aborts at exactly the inputs where the
reduction differs from the plain sum). -/
def zoom_prec (w h zoom : ℕ) : ℕ :=
  (zoom_p zoom + 3 + resolution_prec w h) % 2 ^ 32

/-- Modelled from the spec: the C5 claim's `input_precision_of`, which uses
"the number of significant decimal digits in the supplied bound"
(digit characters) instead of the string length, applied to an axis pair
in the same shape as `parse_range_prec`. -/
def spec_input_precision_of (b e : String) : ℕ :=
  4 + ⌈(max (b.toList.filter Char.isDigit).length
           (e.toList.filter Char.isDigit).length : ℚ) * log2_10⌉₊

/-- Modelled from the spec: the C5 claim's full precision plan,
`ceil(log2(max(w, h))) + 1 + max(input_precision_of(domain),
input_precision_of(range)) + 4` with a ceiling (not floor) logarithm. -/
def spec_explicit_prec (w h : ℕ) (db de rb re : String) : ℕ :=
  (Nat.clog 2 (max w h) + 1) +
    max (spec_input_precision_of db de) (spec_input_precision_of rb re) + 4

/-! ### Escape-time evaluator (main.rs lines 110-136, 232-234) -/

/-- Embeds one step of `SquaresComplex::next` state update
(main.rs lines 119-120): `z.square_mut(); z += &c` on `(re, im)` pairs,
i.e. `z ← z² + c`. -/
def stepZ (c z : ℚ × ℚ) : ℚ × ℚ :=
  (z.1 * z.1 - z.2 * z.2 + c.1, 2 * z.1 * z.2 + c.2)

/-- Squared magnitude of a complex value. -/
def normSq (z : ℚ × ℚ) : ℚ := z.1 * z.1 + z.2 * z.2

/-- Embeds the divergence test (main.rs lines 122-123):
`Float::with_val(5, z.abs_ref()) > 4`.  The 5-bit rounded magnitude
exceeds 4 exactly when `|z| > 33/8`, i.e. when `normSq z > 1089/64`
(see the file header). -/
def escTest (z : ℚ × ℚ) : Bool :=
  decide ((1089 : ℚ) / 64 < normSq z)

/-- Embeds `square_iter(c).take(fuel).count()` (main.rs lines 115-136,
232-234) from an arbitrary current state `z`: each `next()` call performs
one step and yields an item only if the new state passed the divergence
test; the count is the number of yielded items, capped by the fuel. -/
def iterCount (c : ℚ × ℚ) : ℚ × ℚ → ℕ → ℕ
  | _, 0 => 0
  | z, fuel + 1 =>
    let z1 := stepZ c z
    if escTest z1 then 0 else iterCount c z1 fuel + 1

/-- Embeds `square_iter(c).take(take).count()` starting from
`z = 0 + 0i` (main.rs lines 131-136, 232-234). -/
def squaresCount (c : ℚ × ℚ) (take : ℕ) : ℕ :=
  iterCount c (0, 0) take

/-- The spec's `IterationResult` record. -/
structure IterationResult where
  count : ℕ
  escaped : Bool
  deriving DecidableEq, Repr

/-- The evaluator as `main` consumes it: the iteration count together with
the escape flag `i < take` it is compared against (main.rs line 245). -/
def evaluate (c : ℚ × ℚ) (take : ℕ) : IterationResult :=
  let i := squaresCount c take
  ⟨i, decide (i < take)⟩

/-- The iterate `z_n` of the recurrence from `z₀ = 0`. -/
def zIter (c : ℚ × ℚ) : ℕ → ℚ × ℚ
  | 0 => (0, 0)
  | n + 1 => stepZ c (zIter c n)

/-- The iterate after `n` further steps from state `z` (front-consuming
form used to reason about `iterCount`). -/
def zIterFrom (c z : ℚ × ℚ) : ℕ → ℚ × ℚ
  | 0 => z
  | n + 1 => zIterFrom c (stepZ c z) n

/-! ### Viewport mapper (main.rs lines 150-165, 229-230) -/

/-- Embeds the explicit-bounds step computation (main.rs lines 153-162):
`step = (bound_start − bound_end) / resolution` for either axis. -/
def explicit_step (b0 b1 : ℚ) (res : ℕ) : ℚ :=
  (b0 - b1) / (res : ℚ)

/-- Embeds the pixel-to-plane mapping (main.rs lines 229-230):
`val = begin + i * step`. -/
def pointAt (begin step : ℚ) (i : ℕ) : ℚ :=
  begin + (i : ℚ) * step

/-- Modelled from the spec: the C2 claim's step,
`step_axis = (bound_end − bound_start) / resolution_axis`. -/
def spec_step (b0 b1 : ℚ) (res : ℕ) : ℚ :=
  (b1 - b0) / (res : ℚ)

/-! ### Coordinate-specification resolution (main.rs lines 150-191) -/

/-- The two coordinate specifications `main` can end up using. -/
inductive CoordSpec where
  | bounds : ℚ × ℚ → ℚ × ℚ → CoordSpec
  | zoomCenter : ℕ → ℚ × ℚ → CoordSpec
  deriving DecidableEq

/-- Embeds the control flow of `main` that selects the coordinate
specification (main.rs lines 150-191): `if let Some(..) = args.domain`
takes the explicit-bounds branch and `expect`s `args.range`
(line 151); otherwise the zoom branch `expect`s `args.zoom` (lines
167-169) and then `args.centered_around` (lines 183-185).  `expect` on
`None` is a fatal abort, modelled as `Except.error` with the
program's message. -/
def resolveCoords (domain range : Option (ℚ × ℚ)) (zoom : Option ℕ)
    (center : Option (ℚ × ℚ)) : Except String CoordSpec :=
  match domain with
  | some d =>
    match range with
    | some r => .ok (.bounds d r)
    | none => .error "Domain and Range are both required"
  | none =>
    match zoom with
    | none => .error "If Domain and Range are not specified, Zoom and Point are required"
    | some z =>
      match center with
      | none => .error "If Domain and Range are not specified, Zoom and Point are required"
      | some ctr => .ok (.zoomCenter z ctr)

/-! ### Parallel renderer (main.rs lines 223-264) -/

/-- An 8-bit RGB triple (`image::Rgb<u8>`). -/
abbrev Rgb := ℕ × ℕ × ℕ

/-- The zero pixel `ImageBuffer::new` fills the buffer with
(main.rs line 223). -/
def blackPixel : Rgb := (0, 0, 0)

/-- The raster, as the map from pixel coordinates to pixel values. -/
abbrev PixelBuffer := ℕ × ℕ → Rgb

/-- Embeds `ImageBuffer::new(w, h)` (main.rs line 223): every pixel is
zero-initialised. -/
def newBuffer : PixelBuffer := fun _ => blackPixel

/-- Embeds `img.put_pixel(x, y, p)` (main.rs line 263). -/
def putPixel (buf : PixelBuffer) (p : ℕ × ℕ) (col : Rgb) : PixelBuffer :=
  fun q => if q = p then col else buf q

/-- Embeds the sequential write loop (main.rs lines 225, 262-264):
`put_pixel` applied in order over the collected triples. -/
def applyWrites (ws : List ((ℕ × ℕ) × Rgb)) (buf : PixelBuffer) : PixelBuffer :=
  ws.foldl (fun b w => putPixel b w.1 w.2) buf

/-- Embeds the `filter_map` stage (main.rs lines 228-260): each pixel
coordinate is mapped through the per-pixel closure `f` (pure: it reads
only the shared immutable inputs), keeping `(coordinate, value)` for the
pixels where the closure produces a value.  `rayon`'s `collect` on an
indexed parallel iterator returns these triples in the enumeration
order regardless of the worker count. -/
def renderWrites (f : ℕ × ℕ → Option Rgb) (order : List (ℕ × ℕ)) :
    List ((ℕ × ℕ) × Rgb) :=
  order.filterMap fun p => (f p).map fun col => (p, col)

/-- The whole render (main.rs lines 223-264): evaluate every enumerated
pixel, then apply all writes to a fresh buffer. -/
def render (f : ℕ × ℕ → Option Rgb) (order : List (ℕ × ℕ)) : PixelBuffer :=
  applyWrites (renderWrites f order) newBuffer

/-- Embeds the pixel enumeration (main.rs lines 225-227):
`(0..w).flat_map(|x| (0..h).map(|y| (x, y)))`. -/
def pixelGrid (w h : ℕ) : List (ℕ × ℕ) :=
  (List.range w).flatMap fun x => (List.range h).map fun y => (x, y)

/-- Embeds the per-pixel closure (main.rs lines 228-259): compute the
plane point of the pixel, run the escape-time evaluator, and yield a
value only when the count stayed below the cap.  The colour computation
(gradient sampling, main.rs lines 236-243) depends only on the count and
the fixed configuration, so it enters as the function `colorOf`. -/
def renderPixel (xb yb xs ys : ℚ) (take : ℕ) (colorOf : ℕ → Rgb)
    (p : ℕ × ℕ) : Option Rgb :=
  let i := squaresCount (pointAt xb xs p.1, pointAt yb ys p.2) take
  if i < take then some (colorOf i) else none

/-! ### Helper lemmas about the evaluator -/

theorem iterCount_le (c : ℚ × ℚ) (fuel : ℕ) : ∀ z, iterCount c z fuel ≤ fuel := by
  induction fuel with
  | zero => intro z; simp [iterCount]
  | succ n ih =>
    intro z
    simp only [iterCount]
    split
    · omega
    · exact Nat.succ_le_succ (ih _)

theorem zIterFrom_succ_back (c : ℚ × ℚ) (n : ℕ) :
    ∀ z, zIterFrom c z (n + 1) = stepZ c (zIterFrom c z n) := by
  induction n with
  | zero => intro z; rfl
  | succ m ih =>
    intro z
    show zIterFrom c (stepZ c z) (m + 1) = stepZ c (zIterFrom c (stepZ c z) m)
    exact ih (stepZ c z)

theorem zIter_eq_zIterFrom (c : ℚ × ℚ) (n : ℕ) : zIter c n = zIterFrom c (0, 0) n := by
  induction n with
  | zero => rfl
  | succ m ih =>
    show stepZ c (zIter c m) = _
    rw [ih, ← zIterFrom_succ_back]

theorem iterCount_lt_iff (c : ℚ × ℚ) (fuel : ℕ) :
    ∀ z, iterCount c z fuel < fuel ↔
      ∃ k, 1 ≤ k ∧ k ≤ fuel ∧ escTest (zIterFrom c z k) = true := by
  induction fuel with
  | zero =>
    intro z
    constructor
    · intro h; omega
    · rintro ⟨k, hk1, hk0, _⟩; omega
  | succ n ih =>
    intro z
    simp only [iterCount]
    by_cases hesc : escTest (stepZ c z) = true
    · rw [if_pos hesc]
      constructor
      · intro _
        exact ⟨1, le_refl 1, by omega, by simpa [zIterFrom] using hesc⟩
      · intro _; omega
    · rw [if_neg hesc]
      constructor
      · intro hlt
        have hlt2 : iterCount c (stepZ c z) n < n := by omega
        obtain ⟨k, hk1, hkn, hkesc⟩ := (ih (stepZ c z)).mp hlt2
        exact ⟨k + 1, by omega, by omega, by simpa [zIterFrom] using hkesc⟩
      · rintro ⟨k, hk1, hkn, hkesc⟩
        match k, hk1 with
        | 1, _ => exact absurd (by simpa [zIterFrom] using hkesc) hesc
        | m + 2, _ =>
          have hlt2 : iterCount c (stepZ c z) n < n :=
            (ih (stepZ c z)).mpr ⟨m + 1, by omega, by omega,
              by simpa [zIterFrom] using hkesc⟩
          omega

theorem iterCount_c_zero (fuel : ℕ) : iterCount (0, 0) (0, 0) fuel = fuel := by
  induction fuel with
  | zero => rfl
  | succ n ih =>
    have hstep : stepZ (0, 0) (0, 0) = ((0 : ℚ), (0 : ℚ)) := by
      simp [stepZ]
    have hesc : escTest ((0 : ℚ), (0 : ℚ)) = false := by
      simp only [escTest, normSq, decide_eq_false_iff_not]
      norm_num
    simp only [iterCount, hstep, hesc, Bool.false_eq_true, if_false]
    exact congrArg Nat.succ ih

/-! ### Helper lemmas about the renderer -/

theorem applyWrites_cons (w : (ℕ × ℕ) × Rgb) (ws : List ((ℕ × ℕ) × Rgb))
    (buf : PixelBuffer) :
    applyWrites (w :: ws) buf = applyWrites ws (putPixel buf w.1 w.2) := rfl

theorem applyWrites_renderWrites_eval (f : ℕ × ℕ → Option Rgb) :
    ∀ (o : List (ℕ × ℕ)), o.Nodup → ∀ (buf : PixelBuffer) (q : ℕ × ℕ),
      applyWrites (renderWrites f o) buf q =
        if q ∈ o then (f q).getD (buf q) else buf q := by
  intro o
  induction o with
  | nil =>
    intro _ buf q
    simp [renderWrites, applyWrites]
  | cons p t ih =>
    intro hnd buf q
    have hp : p ∉ t := (List.nodup_cons.mp hnd).1
    have ht : t.Nodup := (List.nodup_cons.mp hnd).2
    by_cases hq : q = p
    · subst hq
      cases hfp : f q with
      | none =>
        have hrw : renderWrites f (q :: t) = renderWrites f t := by
          simp [renderWrites, hfp]
        rw [hrw, ih ht]
        simp [hp, hfp]
      | some col =>
        have hrw : renderWrites f (q :: t) = (q, col) :: renderWrites f t := by
          simp [renderWrites, hfp]
        rw [hrw, applyWrites_cons, ih ht]
        simp [hp, hfp, putPixel]
    · cases hfp : f p with
      | none =>
        have hrw : renderWrites f (p :: t) = renderWrites f t := by
          simp [renderWrites, hfp]
        rw [hrw, ih ht]
        by_cases hqt : q ∈ t
        · rw [if_pos hqt, if_pos (List.mem_cons_of_mem p hqt)]
        · rw [if_neg hqt, if_neg (by simp [List.mem_cons, hq, hqt])]
      | some col =>
        have hrw : renderWrites f (p :: t) = (p, col) :: renderWrites f t := by
          simp [renderWrites, hfp]
        have hput : putPixel buf p col q = buf q := by
          simp [putPixel, hq]
        rw [hrw, applyWrites_cons, ih ht, hput]
        by_cases hqt : q ∈ t
        · rw [if_pos hqt, if_pos (List.mem_cons_of_mem p hqt)]
        · rw [if_neg hqt, if_neg (by simp [List.mem_cons, hq, hqt])]

theorem pixelGrid_eq_product (w h : ℕ) :
    pixelGrid w h = (List.range w).product (List.range h) := rfl

theorem pixelGrid_nodup (w h : ℕ) : (pixelGrid w h).Nodup := by
  rw [pixelGrid_eq_product]
  exact (List.nodup_range w).product (List.nodup_range h)

theorem mem_renderWrites (f : ℕ × ℕ → Option Rgb) (o : List (ℕ × ℕ))
    (p : ℕ × ℕ) (col : Rgb) :
    (p, col) ∈ renderWrites f o ↔ p ∈ o ∧ f p = some col := by
  simp only [renderWrites, List.mem_filterMap, Option.map_eq_some', Prod.mk.injEq]
  constructor
  · rintro ⟨a, ha, c, hc, rfl, rfl⟩
    exact ⟨ha, hc⟩
  · rintro ⟨hmem, hsome⟩
    exact ⟨p, hmem, col, hsome, rfl, rfl⟩

/-! ### Claim C1 -/

/-- C1, counterexample: at `c = 3 + 0i` with cap 1 the code reports
`escaped = false` even though `|z₁| = 3 > 2` at iteration `1 ≤ take`:
the code's divergence threshold is not 2 (its test is the 5-bit-rounded
magnitude against 4, and 3 does not exceed it). -/
theorem C1_counterexample :
    (evaluate ((3 : ℚ), (0 : ℚ)) 1).escaped = false ∧
      (2 : ℚ) * 2 < normSq (zIter ((3 : ℚ), (0 : ℚ)) 1) := by
  have hcount : iterCount ((3 : ℚ), (0 : ℚ)) (0, 0) 1 = 1 := by
    simp only [iterCount, stepZ, escTest, normSq]
    norm_num
  constructor
  · show decide (iterCount ((3 : ℚ), (0 : ℚ)) (0, 0) 1 < 1) = false
    rw [hcount]
    simp
  · show (2 : ℚ) * 2 < normSq (stepZ ((3 : ℚ), (0 : ℚ)) (0, 0))
    simp only [stepZ, normSq]
    norm_num

/-- C1 (amended): for every point `c` and cap `take ≥ 1`, the evaluator
reports `escaped = true` iff the escape test — the magnitude rounded to
5 bits exceeding 4, equivalently `|z_{n+1}| > 33/8` — fired at some
iteration `n+1 ≤ take` of `z_{n+1} = z_n² + c` from `z₀ = 0`. -/
theorem C1_escaped_iff_code_threshold (c : ℚ × ℚ) (take : ℕ) (h : 1 ≤ take) :
    (evaluate c take).escaped = true ↔
      ∃ k, 1 ≤ k ∧ k ≤ take ∧ escTest (zIter c k) = true := by
  simp only [zIter_eq_zIterFrom]
  have he : (evaluate c take).escaped = decide (iterCount c (0, 0) take < take) := rfl
  rw [he, decide_eq_true_eq]
  exact iterCount_lt_iff c take (0, 0)

/-- C1, witness of the amended theorem at `c = 5 + 0i`, cap 1. -/
theorem C1_escaped_iff_code_threshold_witness :
    (evaluate ((5 : ℚ), (0 : ℚ)) 1).escaped = true ↔
      ∃ k, 1 ≤ k ∧ k ≤ 1 ∧ escTest (zIter ((5 : ℚ), (0 : ℚ)) k) = true :=
  C1_escaped_iff_code_threshold (5, 0) 1 (le_refl 1)

/-! ### Claim C3 -/

/-- C3: for every `c` and cap, the count lies in `[0, take]`, `escaped`
holds exactly when the count is below the cap, and `escaped = false`
exactly when the count equals the cap. -/
theorem C3_count_bounds (c : ℚ × ℚ) (take : ℕ) :
    (evaluate c take).count ≤ take ∧
      ((evaluate c take).escaped = true ↔ (evaluate c take).count < take) ∧
      ((evaluate c take).escaped = false ↔ (evaluate c take).count = take) := by
  have hle : squaresCount c take ≤ take := iterCount_le c take (0, 0)
  refine ⟨hle, ?_, ?_⟩
  · show decide (squaresCount c take < take) = true ↔ squaresCount c take < take
    simp only [decide_eq_true_eq]
  · show decide (squaresCount c take < take) = false ↔ squaresCount c take = take
    rw [decide_eq_false_iff_not]
    omega

/-! ### Claim C4 -/

/-- C4, counterexample: at `c = 5 + 0i` with cap 1 the reported count is
0, not 1: the escaping call of `next` returns `None`, so `count()` does
not count the escaping iteration. -/
theorem C4_counterexample :
    (evaluate ((5 : ℚ), (0 : ℚ)) 1).count = 0 ∧
      ¬ (evaluate ((5 : ℚ), (0 : ℚ)) 1).count = 1 := by
  have hcount : iterCount ((5 : ℚ), (0 : ℚ)) (0, 0) 1 = 0 := by
    simp only [iterCount, stepZ, escTest, normSq]
    norm_num
  exact ⟨hcount, by rw [show (evaluate ((5 : ℚ), (0 : ℚ)) 1).count =
    iterCount ((5 : ℚ), (0 : ℚ)) (0, 0) 1 from rfl, hcount]; omega⟩

/-- C4 (amended): for `c = 5 + 0i` and any cap ≥ 1 the evaluator
escapes on the first iteration with reported count 0 (the escaping
iteration itself is not counted). -/
theorem C4_five_escapes_count_zero (take : ℕ) (h : 1 ≤ take) :
    (evaluate ((5 : ℚ), (0 : ℚ)) take).count = 0 ∧
      (evaluate ((5 : ℚ), (0 : ℚ)) take).escaped = true := by
  obtain ⟨m, rfl⟩ : ∃ m, take = m + 1 := ⟨take - 1, by omega⟩
  have hstep : stepZ ((5 : ℚ), (0 : ℚ)) (0, 0) = ((5 : ℚ), (0 : ℚ)) := by
    simp [stepZ]
  have hesc : escTest ((5 : ℚ), (0 : ℚ)) = true := by
    simp only [escTest, normSq, decide_eq_true_eq]
    norm_num
  have hcount : squaresCount ((5 : ℚ), (0 : ℚ)) (m + 1) = 0 := by
    show iterCount ((5 : ℚ), (0 : ℚ)) (0, 0) (m + 1) = 0
    simp only [iterCount, hstep, hesc, if_true]
  refine ⟨hcount, ?_⟩
  show decide (squaresCount ((5 : ℚ), (0 : ℚ)) (m + 1) < m + 1) = true
  rw [hcount]
  simp

/-- C4, witness of the amended theorem at cap 2. -/
theorem C4_five_escapes_count_zero_witness :
    (evaluate ((5 : ℚ), (0 : ℚ)) 2).count = 0 ∧
      (evaluate ((5 : ℚ), (0 : ℚ)) 2).escaped = true :=
  C4_five_escapes_count_zero 2 (by norm_num)

/-! ### Claim C8 -/

/-- C8: for `c = 0 + 0i` and any cap ≥ 1 the evaluator reports
`escaped = false` with `count = take`: the iterate stays at 0. -/
theorem C8_zero_never_escapes (take : ℕ) (h : 1 ≤ take) :
    (evaluate ((0 : ℚ), (0 : ℚ)) take).count = take ∧
      (evaluate ((0 : ℚ), (0 : ℚ)) take).escaped = false := by
  have hcount : squaresCount ((0 : ℚ), (0 : ℚ)) take = take := iterCount_c_zero take
  refine ⟨hcount, ?_⟩
  show decide (squaresCount ((0 : ℚ), (0 : ℚ)) take < take) = false
  rw [hcount]
  simp

/-- C8, witness at cap 3. -/
theorem C8_zero_never_escapes_witness :
    (evaluate ((0 : ℚ), (0 : ℚ)) 3).count = 3 ∧
      (evaluate ((0 : ℚ), (0 : ℚ)) 3).escaped = false :=
  C8_zero_never_escapes 3 (by norm_num)

/-! ### Claim C2 -/

/-- C2, evaluation at the failing input (bounds `(0, 1)`, resolution 2):
the code's step is `(start − end) / res = −1/2`, the negation of the
specified `(end − start) / res = 1/2`; pixel 1 is mapped to `−1/2`,
outside the bounds, and `point(w−1)` misses `d1 = 1` by three half-steps
rather than approaching it within one step. -/
theorem C2_step_sign_flipped :
    explicit_step 0 1 2 = -(1 / 2) ∧
      spec_step 0 1 2 = 1 / 2 ∧
      pointAt 0 (explicit_step 0 1 2) 1 = -(1 / 2) ∧
      pointAt 0 (spec_step 0 1 2) 1 = 1 / 2 ∧
      (1 : ℚ) - pointAt 0 (explicit_step 0 1 2) 1 = 3 / 2 := by
  norm_num [explicit_step, spec_step, pointAt]

/-! ### Claim C5 -/

/-- C5, counterexample: at resolution `(3, 2)` with every bound supplied
as the three-character, two-digit string `"1.5"` or `"2.5"`, the code
plans 20 bits (floor log2 and character counts) while the claim's
formula yields 18 bits (ceiling log2 and significant-digit counts). -/
theorem C5_counterexample :
    explicit_prec 3 2 "1.5" "2.5" "1.5" "2.5" = 20 ∧
      spec_explicit_prec 3 2 "1.5" "2.5" "1.5" "2.5" = 18 := by
  have hlen1 : ("1.5" : String).length = 3 := rfl
  have hlen2 : ("2.5" : String).length = 3 := rfl
  have hdig1 : (("1.5" : String).toList.filter Char.isDigit).length = 2 := rfl
  have hdig2 : (("2.5" : String).toList.filter Char.isDigit).length = 2 := rfl
  have hceil3 : ⌈(3 : ℚ) * log2_10⌉₊ = 10 := by
    rw [Nat.ceil_eq_iff (by norm_num), log2_10]
    norm_num
  have hceil2 : ⌈(2 : ℚ) * log2_10⌉₊ = 7 := by
    rw [Nat.ceil_eq_iff (by norm_num), log2_10]
    norm_num
  have hlog : Nat.log2 3 = 1 := by
    rw [Nat.log2_eq_log_two]
    exact Nat.log_eq_of_pow_le_of_lt_pow (by norm_num) (by norm_num)
  have hclog : Nat.clog 2 3 = 2 := by
    have h1 := (Nat.pow_lt_iff_lt_clog (by norm_num : 1 < 2)).mp
      (by norm_num : 2 ^ 1 < 3)
    have h2 := (Nat.le_pow_iff_clog_le (by norm_num : 1 < 2)).mp
      (by norm_num : 3 ≤ 2 ^ 2)
    omega
  constructor
  · simp only [explicit_prec, parse_range_prec, num_digits_log2_10, resolution_prec,
      hlen1, hlen2]
    norm_num [hceil3, hlog]
  · simp only [spec_explicit_prec, spec_input_precision_of, hdig1, hdig2]
    norm_num [hceil2, hclog]

/-- C5 (amended): in explicit domain+range mode the planned precision is
`resolution_prec + max(input_precision_of(domain), input_precision_of(range)) + 4`
where `resolution_prec = floor(log2(max(w, h))) + 1` and each axis's
input precision is `4 + ceil(len * log2(10))` (clamped to `u32::MAX`)
with `len` the character length of the longer of the two bound strings
of that axis. -/
theorem C5_precision_formula (w h : ℕ) (db de rb re : String) :
    explicit_prec w h db de rb re =
      (Nat.log 2 (max w h) + 1) +
        max (4 + min ⌈((max db.length de.length : ℕ) : ℚ) * log2_10⌉₊ (2 ^ 32 - 1))
            (4 + min ⌈((max rb.length re.length : ℕ) : ℚ) * log2_10⌉₊ (2 ^ 32 - 1)) +
        4 := by
  simp only [explicit_prec, parse_range_prec, num_digits_log2_10, resolution_prec,
    Nat.log2_eq_log_two]

/-! ### Claim C6 -/

/-- C6, counterexample: supplying all of domain, range, zoom and center
is accepted (the explicit bounds win and the zoom/center inputs are
silently ignored), not reported as a fatal configuration error. -/
theorem C6_counterexample :
    resolveCoords (some ((0 : ℚ), (0 : ℚ))) (some ((0 : ℚ), (0 : ℚ)))
        (some 1) (some ((0 : ℚ), (0 : ℚ))) =
      Except.ok (CoordSpec.bounds ((0 : ℚ), (0 : ℚ)) ((0 : ℚ), (0 : ℚ))) := rfl

/-- C6 (amended): configuration resolution succeeds exactly when the
domain and range are both supplied (in which case they are used and any
zoom/center inputs are ignored) or the domain is absent and zoom and
center are both supplied; every other combination — a partial
domain/range pair or a missing zoom or center without bounds — aborts
with an error before any rendering. -/
theorem C6_config_characterization :
    (∀ (domain range : Option (ℚ × ℚ)) (zoom : Option ℕ)
        (center : Option (ℚ × ℚ)),
        (∃ s, resolveCoords domain range zoom center = Except.ok s) ↔
          (domain.isSome = true ∧ range.isSome = true) ∨
            (domain = none ∧ zoom.isSome = true ∧ center.isSome = true)) ∧
      (∀ (d r : ℚ × ℚ) (zoom : Option ℕ) (center : Option (ℚ × ℚ)),
        resolveCoords (some d) (some r) zoom center =
          Except.ok (CoordSpec.bounds d r)) := by
  constructor
  · intro domain range zoom center
    cases domain <;> cases range <;> cases zoom <;> cases center <;>
      simp [resolveCoords]
  · intro d r zoom center
    rfl

/-! ### Claim C9 -/

theorem zoom_prec_def (w h z : ℕ) :
    zoom_prec w h z = (zoom_p z + 3 + resolution_prec w h) % 2 ^ 32 := rfl

theorem zoom_p_def (z : ℕ) :
    zoom_p z = min ⌈(z : ℚ) * log2_10⌉₊ (2 ^ 32 - 1) := rfl

theorem resolution_prec_def (w h : ℕ) :
    resolution_prec w h = Nat.log2 (max w h) + 1 := rfl

theorem resolution_prec_2560_1440 : resolution_prec 2560 1440 = 12 := by
  rw [resolution_prec_def]
  have hmax : max 2560 1440 = 2560 := by norm_num
  rw [hmax, Nat.log2_eq_log_two,
    Nat.log_eq_of_pow_le_of_lt_pow (by norm_num : 2 ^ 11 ≤ 2560)
      (by norm_num : 2560 < 2 ^ 12)]

/-- C9, counterexample: at zoom `2^31` (a valid `u32`) and the default
resolution, the exponent term is clamped to `u32::MAX`, so the precision
planned for zoom `2^31 + 1` is not strictly greater — it equals the one
planned for zoom `2^31`. -/
theorem C9_counterexample :
    zoom_prec 2560 1440 2147483648 = zoom_prec 2560 1440 2147483649 ∧
      ¬ zoom_prec 2560 1440 2147483648 < zoom_prec 2560 1440 2147483649 := by
  have h1 : zoom_p 2147483648 = 2 ^ 32 - 1 := by
    rw [zoom_p_def]
    apply Nat.min_eq_right
    have hx : ((2 ^ 32 - 1 : ℕ) : ℚ) ≤ ((2147483648 : ℕ) : ℚ) * log2_10 := by
      rw [log2_10]
      norm_num
    exact_mod_cast hx.trans (Nat.le_ceil _)
  have h2 : zoom_p 2147483649 = 2 ^ 32 - 1 := by
    rw [zoom_p_def]
    apply Nat.min_eq_right
    have hx : ((2 ^ 32 - 1 : ℕ) : ℚ) ≤ ((2147483649 : ℕ) : ℚ) * log2_10 := by
      rw [log2_10]
      norm_num
    exact_mod_cast hx.trans (Nat.le_ceil _)
  rw [zoom_prec_def, zoom_prec_def, h1, h2]
  omega

/-- C9 (amended): for fixed resolution, the planned zoom-mode precision
`resolution_prec + ceil(zoom * log2(10)) + 3` is strictly increasing in
the zoom level as long as the value planned for `zoom + 1` stays below
`2^32` (no `u32::MAX` clamping and no `u32` wrap); at larger zooms the
clamp makes consecutive precisions equal. -/
theorem C9_precision_monotone (w h zoom : ℕ)
    (hov : ⌈((zoom : ℚ) + 1) * log2_10⌉₊ + 3 + resolution_prec w h < 2 ^ 32) :
    zoom_prec w h zoom < zoom_prec w h (zoom + 1) ∧
      zoom_prec w h zoom = resolution_prec w h + ⌈(zoom : ℚ) * log2_10⌉₊ + 3 := by
  have hz0 : (0 : ℚ) ≤ (zoom : ℚ) * log2_10 := by
    have : (0 : ℚ) ≤ log2_10 := by rw [log2_10]; norm_num
    positivity
  have hmono : ⌈(zoom : ℚ) * log2_10⌉₊ < ⌈((zoom : ℚ) + 1) * log2_10⌉₊ := by
    have hstep : (zoom : ℚ) * log2_10 + 1 ≤ ((zoom : ℚ) + 1) * log2_10 := by
      have hL1 : (1 : ℚ) ≤ log2_10 := by rw [log2_10]; norm_num
      nlinarith [Nat.cast_nonneg (α := ℚ) zoom]
    calc ⌈(zoom : ℚ) * log2_10⌉₊ < ⌈(zoom : ℚ) * log2_10⌉₊ + 1 := by omega
      _ = ⌈(zoom : ℚ) * log2_10 + 1⌉₊ := (Nat.ceil_add_one hz0).symm
      _ ≤ ⌈((zoom : ℚ) + 1) * log2_10⌉₊ := Nat.ceil_le_ceil hstep
  have hle1 : ⌈((zoom : ℚ) + 1) * log2_10⌉₊ ≤ 2 ^ 32 - 1 := by omega
  have hle0 : ⌈(zoom : ℚ) * log2_10⌉₊ ≤ 2 ^ 32 - 1 := by omega
  have hcast : (((zoom + 1 : ℕ)) : ℚ) = (zoom : ℚ) + 1 := by push_cast; ring
  have hzp1 : zoom_p (zoom + 1) = ⌈((zoom : ℚ) + 1) * log2_10⌉₊ := by
    rw [zoom_p_def, hcast]
    exact Nat.min_eq_left hle1
  have hzp0 : zoom_p zoom = ⌈(zoom : ℚ) * log2_10⌉₊ := by
    rw [zoom_p_def]
    exact Nat.min_eq_left hle0
  have hmod1 : zoom_p (zoom + 1) + 3 + resolution_prec w h < 2 ^ 32 := by
    rw [hzp1]; omega
  have hmod0 : zoom_p zoom + 3 + resolution_prec w h < 2 ^ 32 := by
    rw [hzp0]; omega
  constructor
  · rw [zoom_prec_def, zoom_prec_def, Nat.mod_eq_of_lt hmod0,
      Nat.mod_eq_of_lt hmod1, hzp0, hzp1]
    omega
  · rw [zoom_prec_def, Nat.mod_eq_of_lt hmod0, hzp0]
    omega

/-- C9, witness of the amended theorem at resolution 2560×1440,
zoom 100. -/
theorem C9_precision_monotone_witness :
    zoom_prec 2560 1440 100 < zoom_prec 2560 1440 (100 + 1) ∧
      zoom_prec 2560 1440 100 =
        resolution_prec 2560 1440 + ⌈((100 : ℕ) : ℚ) * log2_10⌉₊ + 3 :=
  C9_precision_monotone 2560 1440 100 (by
    have hceil : ⌈(((100 : ℕ) : ℚ) + 1) * log2_10⌉₊ ≤ 336 := by
      rw [Nat.ceil_le, log2_10]
      norm_num
    rw [resolution_prec_2560_1440]
    omega)

/-! ### Claim C7 -/

/-- C7: the render result depends only on the per-pixel function; any
enumeration order that visits each grid pixel exactly once (any
permutation of the grid, hence any scheduling and worker count) yields
the identical pixel buffer. -/
theorem C7_render_order_independent (f : ℕ × ℕ → Option Rgb) (w h : ℕ)
    (o : List (ℕ × ℕ)) (hperm : o.Perm (pixelGrid w h)) :
    render f o = render f (pixelGrid w h) := by
  have hgrid : (pixelGrid w h).Nodup := pixelGrid_nodup w h
  have ho : o.Nodup := hperm.nodup_iff.mpr hgrid
  funext q
  rw [render, render, applyWrites_renderWrites_eval f o ho newBuffer q,
    applyWrites_renderWrites_eval f (pixelGrid w h) hgrid newBuffer q]
  by_cases hq : q ∈ pixelGrid w h
  · rw [if_pos hq, if_pos (hperm.mem_iff.mpr hq)]
  · rw [if_neg hq, if_neg (fun hc => hq (hperm.mem_iff.mp hc))]

/-- C7, witness: rendering the 2×2 grid in reverse order produces the
same buffer as the forward order. -/
theorem C7_render_order_independent_witness :
    render (fun _ => some (1, 2, 3)) ((pixelGrid 2 2).reverse) =
      render (fun _ => some (1, 2, 3)) (pixelGrid 2 2) :=
  C7_render_order_independent (fun _ => some (1, 2, 3)) 2 2
    ((pixelGrid 2 2).reverse) (by decide)

/-! ### Claim C10 -/

/-- C10: a pixel of the grid receives a write exactly when its escape
count stays strictly below the cap; a pixel whose count reaches the cap
is never written and the final buffer keeps the freshly allocated
buffer's zero (black) value there. -/
theorem C10_unwritten_pixels_stay_black (xb yb xs ys : ℚ) (take : ℕ)
    (colorOf : ℕ → Rgb) (w h : ℕ) (p : ℕ × ℕ) (hp : p ∈ pixelGrid w h) :
    ((∃ col, (p, col) ∈
        renderWrites (renderPixel xb yb xs ys take colorOf) (pixelGrid w h)) ↔
      squaresCount (pointAt xb xs p.1, pointAt yb ys p.2) take < take) ∧
      (squaresCount (pointAt xb xs p.1, pointAt yb ys p.2) take = take →
        render (renderPixel xb yb xs ys take colorOf) (pixelGrid w h) p =
          blackPixel) := by
  have hfp : ∀ col : Rgb,
      renderPixel xb yb xs ys take colorOf p = some col ↔
        squaresCount (pointAt xb xs p.1, pointAt yb ys p.2) take < take ∧
          col = colorOf (squaresCount (pointAt xb xs p.1, pointAt yb ys p.2) take) := by
    intro col
    simp only [renderPixel]
    split
    · rename_i hlt
      simp [hlt, eq_comm]
    · rename_i hge
      simp [hge]
  constructor
  · constructor
    · rintro ⟨col, hcol⟩
      exact ((hfp col).mp ((mem_renderWrites _ _ _ _).mp hcol).2).1
    · intro hlt
      exact ⟨colorOf (squaresCount (pointAt xb xs p.1, pointAt yb ys p.2) take),
        (mem_renderWrites _ _ _ _).mpr ⟨hp, (hfp _).mpr ⟨hlt, rfl⟩⟩⟩
  · intro heq
    have hnone : renderPixel xb yb xs ys take colorOf p = none := by
      simp [renderPixel, heq]
    rw [render, applyWrites_renderWrites_eval _ _ (pixelGrid_nodup w h) newBuffer p,
      if_pos hp, hnone]
    rfl

/-- C10, witness: the 1×1 render at `c = 0` with cap 1 (a non-escaping
pixel) writes nothing and leaves the pixel black. -/
theorem C10_unwritten_pixels_stay_black_witness :
    ((∃ col, ((0, 0), col) ∈
        renderWrites (renderPixel 0 0 0 0 1 (fun _ => (7, 7, 7))) (pixelGrid 1 1)) ↔
      squaresCount (pointAt 0 0 (0, 0).1, pointAt 0 0 (0, 0).2) 1 < 1) ∧
      (squaresCount (pointAt 0 0 (0, 0).1, pointAt 0 0 (0, 0).2) 1 = 1 →
        render (renderPixel 0 0 0 0 1 (fun _ => (7, 7, 7))) (pixelGrid 1 1) (0, 0) =
          blackPixel) :=
  C10_unwritten_pixels_stay_black 0 0 0 0 1 (fun _ => (7, 7, 7)) 1 1 (0, 0)
    (by decide)

end Mandelbrot
